import Mathlib

/-!
Verification of the Zettlr spellchecker overlay (tokenizer and dictionary
lookup cache), the incremental line-annotation model built on top of it,
the RecentDocsProvider, and the TokenList form element.

The tokenizer and cache are embedded from the CodeMirror spellchecker mode
(the `token` stream function and the `check` function).  Lines are modelled
as `List Char`; a call of the CodeMirror `token` function that consumes a
chunk of the stream becomes one `Item`: a dropped single delimiter
character, or an emitted classified span.
-/

namespace Zettlr

/-- The delimiter set of the spellchecker mode, copied character for
character from the source (`delim`): punctuation, whitespace (including a
no-break space) and a fixed list of Unicode dash/quote/interpunct
characters. -/
def delimChars : List Char :=
  "!\"#$%&()*+,-./:;<=>¿?@[\\]^_`\x7b|\x7d~  «„「『』–—…÷".toList

/-- The quotation-mark set of the source (`allQuotes`), used to strip a
single leading/trailing quotation character from a candidate word. -/
def quoteChars : List Char :=
  "‘’‚ ›‹«»„“”「」『』\"'".toList

/-- The literal character sequence of the smart-quote normalisation in
`check` (the source regex `/’‘‚‹›»“”」/g` is a plain nine-character
sequence, not a character class). -/
def smartSeq : List Char :=
  "’‘‚‹›»“”」".toList

/-- Membership in the delimiter set (`delim.includes(ch)` in the source). -/
def isDelim (c : Char) : Bool := delimChars.contains c

/-- The straight apostrophe that smart-quote normalisation rewrites to. -/
def apostrophe : Char := Char.ofNat 39

/-- The backtick character used by the modelled inline-code matcher. -/
def backtickChar : Char := Char.ofNat 96

/-- Span classification following the specification's data model.  The
source returns a CSS class (or `null`) per consumed chunk; the kinds here
name the branch of the `token` function that consumed the chunk. -/
inductive SpanKind where
  | link
  | tag
  | code
  | footnoteRef
  | number
  | url
  | word
deriving DecidableEq

/-- A classified span: kind, raw consumed text, half-open offset interval
into the line, and the (optional) spell-correctness resolution. -/
structure Span where
  kind : SpanKind
  text : List Char
  startOff : Nat
  endOff : Nat
  correct : Option Bool
deriving DecidableEq

/-- The zettelkasten link delimiters from the editor configuration
(`config.zettlr.zettelkasten.linkStart` / `linkEnd`). -/
structure ZknConfig where
  linkStart : List Char
  linkEnd : List Char

/-- The configuration of the worked examples: links are delimited by
`[[` and `]]`. -/
def defaultCfg : ZknConfig := ZknConfig.mk "[[".toList "]]".toList

/-- Least index `j` with `pat` a prefix of `l.drop j` (the first regex
match position of a literal pattern). -/
def firstAt (pat : List Char) : List Char → Option Nat
  | [] => if pat.isEmpty then some 0 else none
  | c :: cs => if pat.isPrefixOf (c :: cs) then some 0 else (firstAt pat cs).map (· + 1)

/-- Match of the zettelkasten link regex `ls + '.+?' + le` anchored at the
start of `s` (the source builds it from the escaped configured delimiters;
`.+?` lazily consumes at least one character).  The matcher is skipped when
`linkStart` is empty, as in the source. -/
def matchLink (ls le : List Char) (s : List Char) : Option Nat :=
  if ls.isEmpty then none
  else if ls.isPrefixOf s then
    match s.drop ls.length with
    | [] => none
    | _ :: tail => (firstAt le tail).map (fun j => ls.length + 1 + j + le.length)
  else none

/-- Modelled from the spec: the zettelkasten tag pattern of
`regular-expressions.js` (not part of the sources at hand); a tag is a
`#` followed by at least one non-delimiter character, as in the worked
example `#idea`. -/
def matchTag : List Char → Option Nat
  | [] => none
  | c :: rest =>
    if c = '#' then
      if (rest.takeWhile (fun a => !isDelim a)).isEmpty then none
      else some (1 + (rest.takeWhile (fun a => !isDelim a)).length)
    else none

/-- Modelled from the spec: the inline-code pattern of
`regular-expressions.js` (not part of the sources at hand); a backtick,
at least one inner character, and the closing backtick, matched lazily. -/
def matchCode : List Char → Option Nat
  | [] => none
  | c :: rest =>
    if c = backtickChar then
      match rest with
      | [] => none
      | _ :: tail => (firstAt [backtickChar] tail).map (fun j => 3 + j)
    else none

/-- Modelled from the spec: the footnote-reference pattern of
`regular-expressions.js` (not part of the sources at hand); `[^` up to the
first closing bracket. -/
def matchFootnote (s : List Char) : Option Nat :=
  if ['[', '^'].isPrefixOf s then
    (firstAt [']'] (s.drop 2)).map (fun j => 3 + j)
  else none

/-- The special-span dispatch of the `token` function: the stream is
matched against the link, tag, inline-code and footnote-reference patterns
in this order, the first match winning. -/
def matchSpecial (cfg : ZknConfig) (s : List Char) : Option (SpanKind × Nat) :=
  match matchLink cfg.linkStart cfg.linkEnd s with
  | some n => some (SpanKind.link, n)
  | none =>
    match matchTag s with
    | some n => some (SpanKind.tag, n)
    | none =>
      match matchCode s with
      | some n => some (SpanKind.code, n)
      | none =>
        match matchFootnote s with
        | some n => some (SpanKind.footnoteRef, n)
        | none => none

/-- Whether `pat` occurs as a contiguous subsequence (an unanchored regex
test of a literal alternative). -/
def containsSeq (pat : List Char) : List Char → Bool
  | [] => pat.isPrefixOf []
  | c :: cs => pat.isPrefixOf (c :: cs) || containsSeq pat cs

/-- The `/\d+/.test(word)` check of the source: the word contains an ASCII
digit anywhere. -/
def containsDigit (w : List Char) : Bool := w.any (fun c => c.isDigit)

/-- The `/https?|www\./.test(word)` check of the source: unanchored, so it
asks whether the word contains `http` or `www.` anywhere. -/
def isURLish (w : List Char) : Bool :=
  containsSeq "http".toList w || containsSeq "www.".toList w

/-- Strip a single leading and a single trailing quotation character from a
candidate word before the dictionary lookup, as the source does. -/
def stripQuotes (w : List Char) : List Char :=
  let w1 := match w with
    | [] => ([] : List Char)
    | c :: rest => if quoteChars.contains c then rest else c :: rest
  match w1.getLast? with
  | none => w1
  | some d => if quoteChars.contains d then w1.dropLast else w1

/-- One consumed chunk of the stream: either a single dropped delimiter
character (the source returns `null` after `stream.next()`), or an emitted
classified span. -/
inductive Item where
  | drop (c : Char)
  | span (kind : SpanKind) (text : List Char)
deriving DecidableEq

/-- The text a consumed chunk covers. -/
def itemText : Item → List Char
  | Item.drop c => [c]
  | Item.span _ t => t

/-- One call of the `token` function on the remaining stream `s`: the
consumed chunk and the stream left over, or `none` at end of line.  The
branch order is the source's: special matchers, single delimiter, then the
word loop with the digit test, the URL test (which greedily eats up to the
next plain space), and finally a spell-checked word. -/
def scanStep (cfg : ZknConfig) (s : List Char) : Option (Item × List Char) :=
  match s with
  | [] => none
  | c :: cs =>
    match matchSpecial cfg (c :: cs) with
    | some (k, n) => some (Item.span k ((c :: cs).take n), (c :: cs).drop n)
    | none =>
      if isDelim c then some (Item.drop c, cs)
      else
        if containsDigit ((c :: cs).takeWhile (fun a => !isDelim a)) then
          some (Item.span SpanKind.number ((c :: cs).takeWhile (fun a => !isDelim a)),
            (c :: cs).dropWhile (fun a => !isDelim a))
        else if isURLish ((c :: cs).takeWhile (fun a => !isDelim a)) then
          some (Item.span SpanKind.url
            ((c :: cs).takeWhile (fun a => !isDelim a) ++
              ((c :: cs).dropWhile (fun a => !isDelim a)).takeWhile (fun a => !(a == ' '))),
            ((c :: cs).dropWhile (fun a => !isDelim a)).dropWhile (fun a => !(a == ' ')))
        else
          some (Item.span SpanKind.word ((c :: cs).takeWhile (fun a => !isDelim a)),
            (c :: cs).dropWhile (fun a => !isDelim a))

/-- The left-to-right scanning loop of the `token` function, one `Item` per
call, with fuel for termination (one character is consumed per step, so
`line.length` fuel suffices). -/
def scanAux (cfg : ZknConfig) : Nat → List Char → List Item
  | 0, _ => []
  | fuel + 1, s =>
    match scanStep cfg s with
    | none => []
    | some (it, rest) => it :: scanAux cfg fuel rest

/-- Scan a whole line into consumed chunks. -/
def scanItems (cfg : ZknConfig) (line : List Char) : List Item :=
  scanAux cfg line.length line

/-- Recover the emitted spans with their offsets from the chunk list. -/
def spansOfItems : Nat → List Item → List Span
  | _, [] => []
  | off, Item.drop _ :: rest => spansOfItems (off + 1) rest
  | off, Item.span k t :: rest =>
    Span.mk k t off (off + t.length) none :: spansOfItems (off + t.length) rest

/-- The Tokenizer of the specification: the ordered span sequence the
spellchecker mode produces for one line. -/
def tokenize (cfg : ZknConfig) (line : List Char) : List Span :=
  spansOfItems 0 (scanItems cfg line)

/-- Concatenation of the consumed chunks. -/
def itemsFlatten : List Item → List Char
  | [] => []
  | it :: rest => itemText it ++ itemsFlatten rest

/-- In-order concatenation of the emitted spans' texts. -/
def spanTextsConcat (spans : List Span) : List Char :=
  spans.foldr (fun sp acc => sp.text ++ acc) []

/-- First result of an ordered list of matchers, as the specification
words the special-span dispatch. -/
def firstMatch : List (Option Nat × SpanKind) → Option (SpanKind × Nat)
  | [] => none
  | (none, _) :: rest => firstMatch rest
  | (some n, k) :: _ => some (k, n)

/-- Smart-quote normalisation of `check`: the source regex
`/’‘‚‹›»“”」/g` is a literal nine-character sequence, so only occurrences
of that exact sequence are rewritten to a straight apostrophe.  Fueled to
keep the recursion structural (each step consumes at least one
character). -/
def normalizeAux : Nat → List Char → List Char
  | 0, _ => []
  | _ + 1, [] => []
  | fuel + 1, c :: cs =>
    if smartSeq.isPrefixOf (c :: cs) then
      apostrophe :: normalizeAux fuel ((c :: cs).drop smartSeq.length)
    else c :: normalizeAux fuel cs

/-- The `saneTerm` computation of `check`. -/
def normalizeTerm (term : List Char) : List Char :=
  normalizeAux term.length term

/-- The spellcheck cache, a map from normalised terms to correctness
(`spellcheckCache` in the source); modelled as an association list with
the most recent insertion in front. -/
abbrev Cache := List (List Char × Bool)

/-- The outcome of one `check` call: the returned boolean, the cache after
the call, and whether an external dictionary query (`ipcRenderer.sendSync`)
was issued. -/
structure CheckResult where
  result : Bool
  cache : Cache
  queried : Bool
deriving DecidableEq

/-- The `check` function of the spellchecker mode.  The external
dictionary collaborator is `dict`; `none` models the `undefined` reply of
a dictionary that is not yet loaded. -/
def check (dict : List Char → Option Bool) (cache : Cache) (term : List Char) :
    CheckResult :=
  let sane := normalizeTerm term
  match cache.lookup sane with
  | some v => CheckResult.mk v cache false
  | none =>
    match dict sane with
    | none => CheckResult.mk true cache true
    | some b => CheckResult.mk b ((sane, b) :: cache) true

/-- The `invalidate-dict` handler: the whole cache map is replaced by a
fresh empty one. -/
def invalidate (_cache : Cache) : Cache := []

/-- The Annotation Pipeline's correctness resolution: each Word span has
its quote-stripped text checked against the cache (threading the cache
through the line, left to right); other spans are left untouched. -/
def resolveSpans (dict : List Char → Option Bool) (cache : Cache) :
    List Span → List Span × Cache
  | [] => ([], cache)
  | sp :: rest =>
    if sp.kind = SpanKind.word then
      let r := check dict cache (stripQuotes sp.text)
      ({ sp with correct := some r.result } :: (resolveSpans dict r.cache rest).1,
        (resolveSpans dict r.cache rest).2)
    else
      (sp :: (resolveSpans dict cache rest).1, (resolveSpans dict cache rest).2)

/-- Modelled from the spec: a Line Record of the Annotation Pipeline
(`{ lineIndex, rawText, spans, dirty }`); records are kept in a list whose
position is the line index, so the index field is implicit. -/
structure LineRecord where
  rawText : List Char
  spans : List Span
  dirty : Bool
deriving DecidableEq

/-- Modelled from the spec: the Annotation Pipeline run on one Line
Record: re-run the Tokenizer on its raw text, resolve every Word span
through the Cache, replace the record's spans and clear its dirty flag. -/
def rescanLine (cfg : ZknConfig) (dict : List Char → Option Bool) (cache : Cache)
    (r : LineRecord) : LineRecord × Cache :=
  (LineRecord.mk r.rawText (resolveSpans dict cache (tokenize cfg r.rawText)).1 false,
    (resolveSpans dict cache (tokenize cfg r.rawText)).2)

/-- Modelled from the spec: the Re-scan Controller's reaction to an edit
touching a single line: mark exactly that Line Record dirty. -/
def markDirty (doc : List LineRecord) (e : Nat) : List LineRecord :=
  match doc[e]? with
  | none => doc
  | some r => doc.set e { r with dirty := true }

/-- Modelled from the spec: `getSpans(lineIndex)`: a dirty record is
flushed through the Annotation Pipeline first; a clean record's stored
spans are returned unchanged; a missing index yields the empty sequence
and no state change. -/
def getSpans (cfg : ZknConfig) (dict : List Char → Option Bool) (cache : Cache)
    (doc : List LineRecord) (i : Nat) : List Span × List LineRecord × Cache :=
  match doc[i]? with
  | none => ([], doc, cache)
  | some r =>
    if r.dirty then
      ((rescanLine cfg dict cache r).1.spans,
        doc.set i (rescanLine cfg dict cache r).1,
        (rescanLine cfg dict cache r).2)
    else (r.spans, doc, cache)

/-- The document metadata held by `RecentDocsProvider` (the fields of
`MDFileMeta`/`CodeFileMeta` the provider inspects, plus a representative
payload field). -/
structure DocMeta where
  path : String
  name : String
deriving DecidableEq

/-- `RecentDocsProvider`'s `add`: drop the first entry with the same path
if present (`find`/`splice`), put the new document in front (`unshift`),
and truncate to 100 entries (`slice(0, 100)`). -/
def recentAdd (doc : DocMeta) (l : List DocMeta) : List DocMeta :=
  (doc :: l.eraseP (fun e => e.path == doc.path)).take 100

/-- `RecentDocsProvider`'s `clear`: the list is emptied. -/
def recentClear (_l : List DocMeta) : List DocMeta := []

/-- The JSON round trip of `get` (`JSON.parse(JSON.stringify(...))`)
rebuilds every record field by field. -/
def copyDoc (d : DocMeta) : DocMeta := DocMeta.mk d.path d.name

/-- `RecentDocsProvider`'s `get`: a deep copy of the internal list. -/
def recentGet (l : List DocMeta) : List DocMeta := l.map copyDoc

/-- `RecentDocsProvider`'s `hasDocs`: whether the list is non-empty. -/
def hasDocs (l : List DocMeta) : Bool := 0 < l.length

/-- The provider states reachable from startup: the list starts empty and
is only changed by `add` and `clear`. -/
inductive RecentReachable : List DocMeta → Prop where
  | init : RecentReachable []
  | add (doc : DocMeta) (l : List DocMeta) :
      RecentReachable l → RecentReachable (recentAdd doc l)
  | clear (l : List DocMeta) :
      RecentReachable l → RecentReachable (recentClear l)

/-- Whitespace test of the JavaScript `String.prototype.trim` model. -/
def isWs (c : Char) : Bool := c.isWhitespace

/-- The `trim()` of the TokenList handler, modelled on character lists:
strip leading and trailing whitespace. -/
def trimChars (l : List Char) : List Char :=
  ((l.dropWhile isWs).reverse.dropWhile isWs).reverse

/-- The key codes on which TokenList commits the current input. -/
def triggerKeys : List String := ["Space", "Enter", "Comma", "Tab"]

/-- TokenList's `handleKey`: nothing happens while the trimmed input is
empty; on a trigger key, the trimmed input is appended to a copy of the
token list and emitted unless it is already present (duplicates emit
nothing).  `none` means no `input` event was emitted, so the bound list is
unchanged. -/
def handleKey (tokens : List (List Char)) (input : List Char) (key : String) :
    Option (List (List Char)) :=
  if trimChars input == [] then none
  else if triggerKeys.contains key then
    if tokens.contains (trimChars input) then none
    else some (tokens ++ [trimChars input])
  else none

/-- A ten-line sample document in which every line is clean. -/
def sampleDoc : List LineRecord :=
  (List.range 10).map (fun _ => LineRecord.mk "text".toList [] false)

/-- Paths of a list after erasing the first entry with a given path stay
pairwise distinct. -/
theorem paths_eraseP_nodup (doc : DocMeta) (l : List DocMeta)
    (h : (l.map DocMeta.path).Nodup) :
    ((l.eraseP (fun e => e.path == doc.path)).map DocMeta.path).Nodup :=
  List.Nodup.sublist ((List.eraseP_sublist l).map DocMeta.path) h

/-- With pairwise distinct paths, erasing the first entry carrying the new
document's path leaves no entry with that path behind. -/
theorem eraseP_path_not_mem (doc : DocMeta) :
    ∀ l : List DocMeta, (l.map DocMeta.path).Nodup →
      ∀ e ∈ l.eraseP (fun x => x.path == doc.path), e.path ≠ doc.path := by
  intro l
  induction l with
  | nil => intro _ e he _; simp at he
  | cons a as ih =>
    intro hnd e he
    have hnd' : (a.path :: as.map DocMeta.path).Nodup := by simpa using hnd
    by_cases hpa : a.path = doc.path
    · rw [List.eraseP_cons_of_pos (by simpa using hpa)] at he
      intro hep
      have hmem : a.path ∈ as.map DocMeta.path :=
        List.mem_map.mpr ⟨e, he, by rw [hep, ← hpa]⟩
      exact (List.nodup_cons.mp hnd').1 hmem
    · rw [List.eraseP_cons_of_neg (by simpa using hpa)] at he
      rcases List.mem_cons.mp he with rfl | he2
      · exact hpa
      · exact ih (List.nodup_cons.mp hnd').2 e he2

/-- The paths of the list after an `add` are pairwise distinct whenever
they were before. -/
theorem recentAdd_paths_nodup (doc : DocMeta) (l : List DocMeta)
    (hnd : (l.map DocMeta.path).Nodup) :
    ((recentAdd doc l).map DocMeta.path).Nodup := by
  simp only [recentAdd]
  refine List.Nodup.sublist ((List.take_sublist _ _).map DocMeta.path) ?_
  rw [List.map_cons, List.nodup_cons]
  refine ⟨?_, paths_eraseP_nodup doc l hnd⟩
  intro hmem
  rcases List.mem_map.mp hmem with ⟨e, he, hpe⟩
  exact eraseP_path_not_mem doc l hnd e he hpe

/-- Invariant of the provider: every reachable recent-documents list has
pairwise distinct paths and at most 100 entries. -/
theorem recent_reachable_invariant :
    ∀ {l : List DocMeta}, RecentReachable l →
      (l.map DocMeta.path).Nodup ∧ l.length ≤ 100 := by
  intro l h
  induction h with
  | init => simp
  | add doc l hl ih =>
    refine ⟨recentAdd_paths_nodup doc l ih.1, ?_⟩
    simp only [recentAdd]
    exact List.length_take_le 100 _
  | clear l hl ih => simp [recentClear]

/-- C8: from any reachable provider state, `add(doc)` leaves at most 100
entries, pairwise distinct paths, and `doc` in front; adding a document
whose path is already present keeps the length unchanged (the entry just
moves to the front). -/
theorem recent_docs_add_front_bounded (doc : DocMeta) (l : List DocMeta)
    (hreach : RecentReachable l) :
    (recentAdd doc l).length ≤ 100 ∧
    ((recentAdd doc l).map DocMeta.path).Nodup ∧
    (recentAdd doc l).head? = some doc ∧
    ((∃ e ∈ l, e.path = doc.path) → (recentAdd doc l).length = l.length) := by
  obtain ⟨hnd, hlen⟩ := recent_reachable_invariant hreach
  refine ⟨?_, recentAdd_paths_nodup doc l hnd, ?_, ?_⟩
  · simp only [recentAdd]
    exact List.length_take_le 100 _
  · simp only [recentAdd]
    rw [show (100 : Nat) = 99 + 1 from rfl, List.take_succ_cons]
    rfl
  · rintro ⟨e, he, hpe⟩
    have herase : (l.eraseP (fun x => x.path == doc.path)).length = l.length - 1 :=
      List.length_eraseP_of_mem he (by simpa using hpe)
    have hpos : 0 < l.length := List.length_pos_of_mem he
    simp only [recentAdd, List.length_take, List.length_cons, herase]
    omega

/-- C8 witness: from the reachable one-entry state holding path `a`,
adding another document with path `a` keeps one entry, with the new
document in front. -/
theorem recent_docs_add_front_bounded_witness :
    (recentAdd (DocMeta.mk "a" "A2") (recentAdd (DocMeta.mk "a" "A") [])).length ≤ 100 ∧
    ((recentAdd (DocMeta.mk "a" "A2") (recentAdd (DocMeta.mk "a" "A") [])).map
      DocMeta.path).Nodup ∧
    (recentAdd (DocMeta.mk "a" "A2") (recentAdd (DocMeta.mk "a" "A") [])).head? =
      some (DocMeta.mk "a" "A2") ∧
    ((∃ e ∈ recentAdd (DocMeta.mk "a" "A") [], e.path = (DocMeta.mk "a" "A2").path) →
      (recentAdd (DocMeta.mk "a" "A2") (recentAdd (DocMeta.mk "a" "A") [])).length =
        (recentAdd (DocMeta.mk "a" "A") []).length) :=
  recent_docs_add_front_bounded (DocMeta.mk "a" "A2") (recentAdd (DocMeta.mk "a" "A") [])
    (RecentReachable.add (DocMeta.mk "a" "A") [] RecentReachable.init)

/-- C2: when the external dictionary replies `undefined` (not ready) for
an uncached term, `check` returns `true`, stores nothing (the cache is
unchanged), and a later `check` for the same term, whatever the
dictionary's state then, issues a fresh external query; when the
dictionary replies a definite boolean, `check` returns it and stores it
under the normalised term. -/
theorem cache_fail_open_not_stored
    (dict : List Char → Option Bool) (cache : Cache) (term : List Char)
    (hmiss : cache.lookup (normalizeTerm term) = none) :
    (dict (normalizeTerm term) = none →
      check dict cache term = CheckResult.mk true cache true ∧
      ∀ dict2 : List Char → Option Bool,
        (check dict2 (check dict cache term).cache term).queried = true) ∧
    (∀ b : Bool, dict (normalizeTerm term) = some b →
      (check dict cache term).result = b ∧
      (check dict cache term).cache.lookup (normalizeTerm term) = some b) := by
  constructor
  · intro hnone
    have h1 : check dict cache term = CheckResult.mk true cache true := by
      simp [check, hmiss, hnone]
    refine ⟨h1, ?_⟩
    intro dict2
    rw [h1]
    simp only [check, hmiss]
    cases dict2 (normalizeTerm term) <;> simp
  · intro b hb
    simp [check, hmiss, hb, List.lookup]

/-- C2 witness: with an empty cache and the term `foo`, a not-ready
dictionary yields `true` with nothing cached, and a ready dictionary
answering `false` yields `false` and caches it. -/
theorem cache_fail_open_not_stored_witness :
    check (fun _ => none) ([] : Cache) "foo".toList = CheckResult.mk true [] true ∧
    (check (fun _ => some false) ([] : Cache) "foo".toList).result = false ∧
    (check (fun _ => some false) ([] : Cache) "foo".toList).cache.lookup
      (normalizeTerm "foo".toList) = some false := by
  refine ⟨?_, ?_, ?_⟩
  · exact ((cache_fail_open_not_stored (fun _ => none) [] "foo".toList (by decide)).1 rfl).1
  · exact ((cache_fail_open_not_stored (fun _ => some false) [] "foo".toList
      (by decide)).2 false rfl).1
  · exact ((cache_fail_open_not_stored (fun _ => some false) [] "foo".toList
      (by decide)).2 false rfl).2

/-- C3: the dictionary-change invalidation empties the whole cache, and a
subsequent `check` for any term issues a fresh external query, its result
determined by the external dictionary alone (fail-open on `undefined`). -/
theorem cache_invalidate_fresh_query (cache : Cache) :
    invalidate cache = [] ∧
    ∀ (dict : List Char → Option Bool) (term : List Char),
      (check dict (invalidate cache) term).queried = true ∧
      (check dict (invalidate cache) term).result =
        (match dict (normalizeTerm term) with
         | none => true
         | some b => b) := by
  refine ⟨rfl, ?_⟩
  intro dict term
  simp only [check, invalidate, List.lookup]
  cases dict (normalizeTerm term) <;> simp

/-- C7: the inputs `42` (a Number span) and `https://example.com` (a URL
span) never produce a span with `correct = false`, whatever the dictionary
and cache state: neither is spell-checked. -/
theorem number_url_never_incorrect
    (dict : List Char → Option Bool) (cache : Cache) :
    (∀ sp ∈ (resolveSpans dict cache (tokenize defaultCfg "42".toList)).1,
      sp.correct ≠ some false) ∧
    (∀ sp ∈ (resolveSpans dict cache (tokenize defaultCfg "https://example.com".toList)).1,
      sp.correct ≠ some false) := by
  have h42 : tokenize defaultCfg "42".toList =
      [Span.mk SpanKind.number "42".toList 0 2 none] := by decide
  have hurl : tokenize defaultCfg "https://example.com".toList =
      [Span.mk SpanKind.url "https://example.com".toList 0 19 none] := by decide
  constructor
  · rw [h42]; simp [resolveSpans]
  · rw [hurl]; simp [resolveSpans]

/-- A `check` call never removes or changes an existing cache entry. -/
theorem check_preserves_lookup (dict : List Char → Option Bool) (cache : Cache)
    (t s : List Char) (v : Bool) (hs : cache.lookup s = some v) :
    (check dict cache t).cache.lookup s = some v := by
  cases hc : cache.lookup (normalizeTerm t) with
  | some w => simp [check, hc, hs]
  | none =>
    cases hd : dict (normalizeTerm t) with
    | none => simp [check, hc, hd, hs]
    | some b =>
      by_cases hse : s = normalizeTerm t
      · subst hse; rw [hs] at hc; cases hc
      · have hbeq : (s == normalizeTerm t) = false := by simpa using hse
        simp [check, hc, hd, List.lookup, hbeq, hs]

/-- A `check` call caches only definite dictionary answers: a term the
dictionary does not know stays uncached. -/
theorem check_preserves_none (dict : List Char → Option Bool) (cache : Cache)
    (t s : List Char) (hdict : dict s = none) (hs : cache.lookup s = none) :
    (check dict cache t).cache.lookup s = none := by
  cases hc : cache.lookup (normalizeTerm t) with
  | some w => simp [check, hc, hs]
  | none =>
    cases hd : dict (normalizeTerm t) with
    | none => simp [check, hc, hd, hs]
    | some b =>
      by_cases hse : s = normalizeTerm t
      · subst hse; rw [hdict] at hd; cases hd
      · have hbeq : (s == normalizeTerm t) = false := by simpa using hse
        simp [check, hc, hd, List.lookup, hbeq, hs]

/-- Re-checking a term against any cache that retains the entries and the
gaps left by the first call reproduces the first result and leaves that
cache unchanged. -/
theorem check_stable (dict : List Char → Option Bool) (cache : Cache) (t : List Char)
    (c2 : Cache)
    (hmono : ∀ s v, (check dict cache t).cache.lookup s = some v → c2.lookup s = some v)
    (hnone : ∀ s, dict s = none → (check dict cache t).cache.lookup s = none →
      c2.lookup s = none) :
    (check dict c2 t).result = (check dict cache t).result ∧
    (check dict c2 t).cache = c2 := by
  cases hc : cache.lookup (normalizeTerm t) with
  | some v =>
    have h2 : c2.lookup (normalizeTerm t) = some v := by
      refine hmono _ _ ?_
      simp [check, hc]
    simp [check, hc, h2]
  | none =>
    cases hd : dict (normalizeTerm t) with
    | none =>
      have h2 : c2.lookup (normalizeTerm t) = none := by
        refine hnone _ hd ?_
        simp [check, hc, hd]
      simp [check, hc, hd, h2]
    | some b =>
      have h2 : c2.lookup (normalizeTerm t) = some b := by
        refine hmono _ _ ?_
        simp [check, hc, hd, List.lookup]
      simp [check, hc, hd, h2]

/-- Resolving a span list never removes or changes an existing cache
entry. -/
theorem resolve_preserves_lookup (dict : List Char → Option Bool) :
    ∀ (spans : List Span) (cache : Cache) (s : List Char) (v : Bool),
      cache.lookup s = some v → (resolveSpans dict cache spans).2.lookup s = some v := by
  intro spans
  induction spans with
  | nil => intro cache s v h; simpa [resolveSpans] using h
  | cons sp rest ih =>
    intro cache s v h
    by_cases hk : sp.kind = SpanKind.word
    · simp only [resolveSpans, if_pos hk]
      exact ih _ _ _ (check_preserves_lookup dict cache (stripQuotes sp.text) s v h)
    · simp only [resolveSpans, if_neg hk]
      exact ih _ _ _ h

/-- Resolving a span list leaves dictionary-unknown terms uncached. -/
theorem resolve_preserves_none (dict : List Char → Option Bool) :
    ∀ (spans : List Span) (cache : Cache) (s : List Char),
      dict s = none → cache.lookup s = none →
      (resolveSpans dict cache spans).2.lookup s = none := by
  intro spans
  induction spans with
  | nil => intro cache s hd h; simpa [resolveSpans] using h
  | cons sp rest ih =>
    intro cache s hd h
    by_cases hk : sp.kind = SpanKind.word
    · simp only [resolveSpans, if_pos hk]
      exact ih _ _ hd (check_preserves_none dict cache (stripQuotes sp.text) s hd h)
    · simp only [resolveSpans, if_neg hk]
      exact ih _ _ hd h

/-- Resolving the same span list again, starting from the cache the first
resolution produced, changes nothing. -/
theorem resolve_idem (dict : List Char → Option Bool) :
    ∀ (spans : List Span) (cache : Cache),
      resolveSpans dict (resolveSpans dict cache spans).2 spans =
        resolveSpans dict cache spans := by
  intro spans
  induction spans with
  | nil => intro cache; simp [resolveSpans]
  | cons sp rest ih =>
    intro cache
    by_cases hk : sp.kind = SpanKind.word
    · simp only [resolveSpans, if_pos hk]
      have hstable := check_stable dict cache (stripQuotes sp.text)
        (resolveSpans dict (check dict cache (stripQuotes sp.text)).cache rest).2
        (fun s v hv => resolve_preserves_lookup dict rest _ s v hv)
        (fun s hd hv => resolve_preserves_none dict rest _ s hd hv)
      rw [hstable.1, hstable.2, ih]
    · simp only [resolveSpans, if_neg hk]
      rw [ih]

/-- C5: re-scanning a Clean line whose raw text has not changed is
idempotent: the Annotation Pipeline produces the same span sequence (and
the same cache) as the prior scan of that line. -/
theorem rescan_idempotent (cfg : ZknConfig) (dict : List Char → Option Bool)
    (cache : Cache) (r : LineRecord) :
    (rescanLine cfg dict (rescanLine cfg dict cache r).2
        (rescanLine cfg dict cache r).1).1.spans =
      (rescanLine cfg dict cache r).1.spans ∧
    (rescanLine cfg dict (rescanLine cfg dict cache r).2
        (rescanLine cfg dict cache r).1).2 =
      (rescanLine cfg dict cache r).2 := by
  have h := resolve_idem dict (tokenize cfg r.rawText) cache
  constructor <;> simp [rescanLine, h]

/-- C9: `get` returns a structurally equal deep copy of the internal
recent-documents list (the JSON round trip rebuilds each record), and
`hasDocs` is true exactly when `get` returns a non-empty list. -/
theorem recent_get_deep_copy (l : List DocMeta) :
    recentGet l = l ∧ (hasDocs l = true ↔ recentGet l ≠ []) := by
  have hcopy : recentGet l = l := by
    have h : ∀ d, copyDoc d = d := fun d => rfl
    calc recentGet l = l.map id := by simp only [recentGet, h]; rfl
    _ = l := l.map_id
  refine ⟨hcopy, ?_⟩
  rw [hcopy]
  cases l <;> simp [hasDocs]

/-- A successful `firstAt` names a position within the list at which the
pattern occurs. -/
theorem firstAt_spec (pat : List Char) :
    ∀ (l : List Char) (j : Nat), firstAt pat l = some j →
      j ≤ l.length ∧ pat.isPrefixOf (l.drop j) = true := by
  intro l
  induction l with
  | nil =>
    intro j h
    by_cases hp : pat.isEmpty = true
    · simp only [firstAt, if_pos hp] at h
      injection h with h0
      subst h0
      have hpat : pat = [] := by simpa [List.isEmpty_iff] using hp
      subst hpat
      exact ⟨Nat.le_refl 0, rfl⟩
    · simp only [firstAt, if_neg hp] at h
      exact Option.noConfusion h
  | cons c cs ih =>
    intro j h
    by_cases hp : pat.isPrefixOf (c :: cs) = true
    · simp only [firstAt, if_pos hp] at h
      injection h with h0
      subst h0
      exact ⟨Nat.zero_le _, hp⟩
    · simp only [firstAt, if_neg hp] at h
      cases hfa : firstAt pat cs with
      | none => rw [hfa] at h; cases h
      | some j2 =>
        rw [hfa] at h
        simp only [Option.map_some'] at h
        injection h with h0
        subst h0
        obtain ⟨hj2, hpre⟩ := ih j2 hfa
        refine ⟨by simp; omega, ?_⟩
        simpa using hpre

/-- A successful link match consumes at least one character and stays
within the stream. -/
theorem matchLink_bound (ls le s : List Char) (n : Nat)
    (h : matchLink ls le s = some n) : 1 ≤ n ∧ n ≤ s.length := by
  unfold matchLink at h
  by_cases hempty : ls.isEmpty = true
  · rw [if_pos hempty] at h; cases h
  · rw [if_neg hempty] at h
    by_cases hpre : ls.isPrefixOf s = true
    · rw [if_pos hpre] at h
      cases hd : s.drop ls.length with
      | nil => rw [hd] at h; cases h
      | cons d tail =>
        rw [hd] at h
        have h2 : Option.map (fun j => ls.length + 1 + j + le.length) (firstAt le tail) =
            some n := h
        cases hfa : firstAt le tail with
        | none => rw [hfa] at h2; cases h2
        | some j =>
          rw [hfa] at h2
          simp only [Option.map_some'] at h2
          injection h2 with hn
          subst hn
          obtain ⟨hj, hjpre⟩ := firstAt_spec le tail j hfa
          have hlen := (List.isPrefixOf_iff_prefix.mp hjpre).length_le
          have hlen_s : ls.length ≤ s.length :=
            (List.isPrefixOf_iff_prefix.mp hpre).length_le
          have hdroplen := congrArg List.length hd
          simp only [List.length_drop, List.length_cons] at hdroplen
          simp only [List.length_drop] at hlen
          omega
    · rw [if_neg hpre] at h; cases h

/-- A successful tag match consumes at least one character and stays
within the stream. -/
theorem matchTag_bound (s : List Char) (n : Nat) (h : matchTag s = some n) :
    1 ≤ n ∧ n ≤ s.length := by
  cases s with
  | nil => simp [matchTag] at h
  | cons c cs =>
    simp only [matchTag] at h
    by_cases hc : c = '#'
    · rw [if_pos hc] at h
      by_cases hw : (cs.takeWhile (fun a => !isDelim a)).isEmpty = true
      · rw [if_pos hw] at h; cases h
      · rw [if_neg hw] at h
        injection h with hn
        subst hn
        have hlen := (List.takeWhile_sublist (fun a => !isDelim a) (l := cs)).length_le
        simp only [List.length_cons]
        omega
    · rw [if_neg hc] at h; cases h

/-- A successful inline-code match consumes at least one character and
stays within the stream. -/
theorem matchCode_bound (s : List Char) (n : Nat) (h : matchCode s = some n) :
    1 ≤ n ∧ n ≤ s.length := by
  cases s with
  | nil => simp [matchCode] at h
  | cons c cs =>
    simp only [matchCode] at h
    by_cases hc : c = backtickChar
    · rw [if_pos hc] at h
      cases cs with
      | nil => cases h
      | cons d tail =>
        have h2 : Option.map (fun j => 3 + j) (firstAt [backtickChar] tail) = some n := h
        cases hfa : firstAt [backtickChar] tail with
        | none => rw [hfa] at h2; cases h2
        | some j =>
          rw [hfa] at h2
          simp only [Option.map_some'] at h2
          injection h2 with hn
          subst hn
          obtain ⟨hj, hjpre⟩ := firstAt_spec [backtickChar] tail j hfa
          have hlen := (List.isPrefixOf_iff_prefix.mp hjpre).length_le
          simp only [List.length_drop, List.length_cons] at hlen
          simp only [List.length_cons]
          omega
    · rw [if_neg hc] at h; cases h

/-- A successful footnote-reference match consumes at least one character
and stays within the stream. -/
theorem matchFootnote_bound (s : List Char) (n : Nat) (h : matchFootnote s = some n) :
    1 ≤ n ∧ n ≤ s.length := by
  unfold matchFootnote at h
  by_cases hpre : List.isPrefixOf ['[', '^'] s = true
  · rw [if_pos hpre] at h
    cases hfa : firstAt [']'] (s.drop 2) with
    | none => rw [hfa] at h; cases h
    | some j =>
      rw [hfa] at h
      simp only [Option.map_some'] at h
      injection h with hn
      subst hn
      obtain ⟨hj, hjpre⟩ := firstAt_spec [']'] (s.drop 2) j hfa
      have hlen := (List.isPrefixOf_iff_prefix.mp hjpre).length_le
      have hlen2 := (List.isPrefixOf_iff_prefix.mp hpre).length_le
      simp only [List.length_drop, List.length_cons, List.length_nil] at hlen hlen2
      simp only [List.length_drop] at hj
      omega
  · rw [if_neg hpre] at h; cases h

/-- A successful special-span match consumes at least one character and
stays within the stream. -/
theorem matchSpecial_bound (cfg : ZknConfig) (s : List Char) (k : SpanKind) (n : Nat)
    (h : matchSpecial cfg s = some (k, n)) : 1 ≤ n ∧ n ≤ s.length := by
  unfold matchSpecial at h
  cases h1 : matchLink cfg.linkStart cfg.linkEnd s with
  | some m =>
    rw [h1] at h
    simp only [Option.some.injEq, Prod.mk.injEq] at h
    obtain ⟨hk, hn⟩ := h
    subst hn
    exact matchLink_bound _ _ _ _ h1
  | none =>
    rw [h1] at h
    cases h2 : matchTag s with
    | some m =>
      rw [h2] at h
      simp only [Option.some.injEq, Prod.mk.injEq] at h
      obtain ⟨hk, hn⟩ := h
      subst hn
      exact matchTag_bound _ _ h2
    | none =>
      rw [h2] at h
      cases h3 : matchCode s with
      | some m =>
        rw [h3] at h
        simp only [Option.some.injEq, Prod.mk.injEq] at h
        obtain ⟨hk, hn⟩ := h
        subst hn
        exact matchCode_bound _ _ h3
      | none =>
        rw [h3] at h
        cases h4 : matchFootnote s with
        | some m =>
          rw [h4] at h
          simp only [Option.some.injEq, Prod.mk.injEq] at h
          obtain ⟨hk, hn⟩ := h
          subst hn
          exact matchFootnote_bound _ _ h4
        | none => rw [h4] at h; cases h

/-- A `scanStep` that consumes nothing only happens at end of line. -/
theorem scanStep_none (cfg : ZknConfig) (s : List Char) (h : scanStep cfg s = none) :
    s = [] := by
  cases s with
  | nil => rfl
  | cons c cs =>
    exfalso
    cases hm : matchSpecial cfg (c :: cs) with
    | some kn =>
      obtain ⟨k, n⟩ := kn
      simp only [scanStep, hm] at h
      exact Option.noConfusion h
    | none =>
      simp only [scanStep, hm] at h
      by_cases hdelim : isDelim c = true
      · rw [if_pos hdelim] at h; cases h
      · rw [if_neg hdelim] at h
        by_cases hdig : containsDigit ((c :: cs).takeWhile (fun a => !isDelim a)) = true
        · rw [if_pos hdig] at h; cases h
        · rw [if_neg hdig] at h
          by_cases hurl : isURLish ((c :: cs).takeWhile (fun a => !isDelim a)) = true
          · rw [if_pos hurl] at h; cases h
          · rw [if_neg hurl] at h; cases h

/-- One successful `token` call consumes a non-empty chunk that prepends
to the leftover stream; a dropped character is a delimiter and an emitted
span is non-empty. -/
theorem scanStep_spec (cfg : ZknConfig) (s : List Char) (it : Item) (rest : List Char)
    (h : scanStep cfg s = some (it, rest)) :
    itemText it ++ rest = s ∧ rest.length < s.length ∧
    (∀ c, it = Item.drop c → isDelim c = true) ∧
    (∀ k t, it = Item.span k t → t ≠ []) := by
  cases s with
  | nil => cases h
  | cons c cs =>
    cases hm : matchSpecial cfg (c :: cs) with
    | some kn =>
      obtain ⟨k, n⟩ := kn
      simp only [scanStep, hm, Option.some.injEq, Prod.mk.injEq] at h
      obtain ⟨hit, hrest⟩ := h
      subst hit hrest
      obtain ⟨hn1, hn2⟩ := matchSpecial_bound cfg (c :: cs) k n hm
      refine ⟨List.take_append_drop n (c :: cs), ?_, ?_, ?_⟩
      · simp only [List.length_drop, List.length_cons]
        omega
      · intro c2 hc2; cases hc2
      · intro k2 t2 ht2
        injection ht2 with hk2 ht2'
        subst ht2'
        cases n with
        | zero => omega
        | succ m => simp
    | none =>
      have hstep : scanStep cfg (c :: cs) =
          (if isDelim c then some (Item.drop c, cs)
          else
            if containsDigit ((c :: cs).takeWhile (fun a => !isDelim a)) then
              some (Item.span SpanKind.number ((c :: cs).takeWhile (fun a => !isDelim a)),
                (c :: cs).dropWhile (fun a => !isDelim a))
            else if isURLish ((c :: cs).takeWhile (fun a => !isDelim a)) then
              some (Item.span SpanKind.url
                ((c :: cs).takeWhile (fun a => !isDelim a) ++
                  ((c :: cs).dropWhile (fun a => !isDelim a)).takeWhile
                    (fun a => !(a == ' '))),
                ((c :: cs).dropWhile (fun a => !isDelim a)).dropWhile (fun a => !(a == ' ')))
            else
              some (Item.span SpanKind.word ((c :: cs).takeWhile (fun a => !isDelim a)),
                (c :: cs).dropWhile (fun a => !isDelim a))) := by
        simp only [scanStep, hm]
      rw [hstep] at h
      by_cases hdelim : isDelim c = true
      · rw [if_pos hdelim] at h
        simp only [Option.some.injEq, Prod.mk.injEq] at h
        obtain ⟨hit, hrest⟩ := h
        subst hit hrest
        refine ⟨rfl, by simp, ?_, ?_⟩
        · intro c2 hc2
          injection hc2 with he
          subst he
          exact hdelim
        · intro k t ht; cases ht
      · rw [if_neg hdelim] at h
        have hposc : (fun a => !isDelim a) c = true := by simp [hdelim]
        have hw : (c :: cs).takeWhile (fun a => !isDelim a)
            = c :: cs.takeWhile (fun a => !isDelim a) := List.takeWhile_cons_of_pos hposc
        have hr : (c :: cs).dropWhile (fun a => !isDelim a)
            = cs.dropWhile (fun a => !isDelim a) := List.dropWhile_cons_of_pos hposc
        have hrlen : ((c :: cs).dropWhile (fun a => !isDelim a)).length ≤ cs.length := by
          rw [hr]
          exact (List.dropWhile_sublist _).length_le
        by_cases hdig : containsDigit ((c :: cs).takeWhile (fun a => !isDelim a)) = true
        · rw [if_pos hdig] at h
          simp only [Option.some.injEq, Prod.mk.injEq] at h
          obtain ⟨hit, hrest⟩ := h
          subst hit hrest
          refine ⟨List.takeWhile_append_dropWhile _ _, ?_, ?_, ?_⟩
          · simp only [List.length_cons]
            omega
          · intro c2 hc2; cases hc2
          · intro k2 t2 ht2
            injection ht2 with hk2 ht2'
            subst ht2'
            rw [hw]
            simp
        · rw [if_neg hdig] at h
          by_cases hurl : isURLish ((c :: cs).takeWhile (fun a => !isDelim a)) = true
          · rw [if_pos hurl] at h
            simp only [Option.some.injEq, Prod.mk.injEq] at h
            obtain ⟨hit, hrest⟩ := h
            subst hit hrest
            have hextra : ((c :: cs).dropWhile (fun a => !isDelim a)).takeWhile
                  (fun a => !(a == ' ')) ++
                ((c :: cs).dropWhile (fun a => !isDelim a)).dropWhile (fun a => !(a == ' '))
                = (c :: cs).dropWhile (fun a => !isDelim a) :=
              List.takeWhile_append_dropWhile _ _
            refine ⟨?_, ?_, ?_, ?_⟩
            · simp only [itemText, List.append_assoc]
              rw [hextra]
              exact List.takeWhile_append_dropWhile _ _
            · have h2 : (((c :: cs).dropWhile (fun a => !isDelim a)).dropWhile
                  (fun a => !(a == ' '))).length ≤
                  ((c :: cs).dropWhile (fun a => !isDelim a)).length :=
                (List.dropWhile_sublist _).length_le
              simp only [List.length_cons]
              omega
            · intro c2 hc2; cases hc2
            · intro k2 t2 ht2
              injection ht2 with hk2 ht2'
              subst ht2'
              rw [hw]
              simp
          · rw [if_neg hurl] at h
            simp only [Option.some.injEq, Prod.mk.injEq] at h
            obtain ⟨hit, hrest⟩ := h
            subst hit hrest
            refine ⟨List.takeWhile_append_dropWhile _ _, ?_, ?_, ?_⟩
            · simp only [List.length_cons]
              omega
            · intro c2 hc2; cases hc2
            · intro k2 t2 ht2
              injection ht2 with hk2 ht2'
              subst ht2'
              rw [hw]
              simp

/-- With enough fuel, the consumed chunks concatenate back to the whole
stream. -/
theorem scan_flatten (cfg : ZknConfig) :
    ∀ (fuel : Nat) (s : List Char), s.length ≤ fuel →
      itemsFlatten (scanAux cfg fuel s) = s := by
  intro fuel
  induction fuel with
  | zero =>
    intro s hs
    have h0 : s = [] := List.eq_nil_of_length_eq_zero (Nat.le_zero.mp hs)
    subst h0
    rfl
  | succ fuel ih =>
    intro s hs
    cases hstep : scanStep cfg s with
    | none =>
      have hnil := scanStep_none cfg s hstep
      subst hnil
      simp [scanAux, hstep, itemsFlatten]
    | some itrest =>
      obtain ⟨it, rest⟩ := itrest
      obtain ⟨hflat, hlen, _, _⟩ := scanStep_spec cfg s it rest hstep
      have haux : scanAux cfg (fuel + 1) s = it :: scanAux cfg fuel rest := by
        simp [scanAux, hstep]
      rw [haux]
      simp only [itemsFlatten]
      rw [ih rest (by omega)]
      exact hflat

/-- Every dropped character is a delimiter. -/
theorem scan_drops_delim (cfg : ZknConfig) :
    ∀ (fuel : Nat) (s : List Char) (c : Char),
      Item.drop c ∈ scanAux cfg fuel s → isDelim c = true := by
  intro fuel
  induction fuel with
  | zero => intro s c h; simp [scanAux] at h
  | succ fuel ih =>
    intro s c h
    cases hstep : scanStep cfg s with
    | none =>
      simp only [scanAux, hstep] at h
      exact absurd h (List.not_mem_nil _)
    | some itrest =>
      obtain ⟨it, rest⟩ := itrest
      simp only [scanAux, hstep] at h
      rcases List.mem_cons.mp h with heq | h2
      · exact (scanStep_spec cfg s it rest hstep).2.2.1 c heq.symm
      · exact ih rest c h2

/-- Every emitted span covers a non-empty chunk of text. -/
theorem scan_spans_nonempty (cfg : ZknConfig) :
    ∀ (fuel : Nat) (s : List Char) (k : SpanKind) (t : List Char),
      Item.span k t ∈ scanAux cfg fuel s → t ≠ [] := by
  intro fuel
  induction fuel with
  | zero => intro s k t h; simp [scanAux] at h
  | succ fuel ih =>
    intro s k t h
    cases hstep : scanStep cfg s with
    | none =>
      simp only [scanAux, hstep] at h
      exact absurd h (List.not_mem_nil _)
    | some itrest =>
      obtain ⟨it, rest⟩ := itrest
      simp only [scanAux, hstep] at h
      rcases List.mem_cons.mp h with heq | h2
      · exact (scanStep_spec cfg s it rest hstep).2.2.2 k t heq.symm
      · exact ih rest k t h2

/-- Every span recovered from the chunk list starts at or after the
running offset. -/
theorem spansOf_start_ge :
    ∀ (its : List Item) (off : Nat), ∀ sp ∈ spansOfItems off its, off ≤ sp.startOff := by
  intro its
  induction its with
  | nil => intro off sp h; simp [spansOfItems] at h
  | cons it rest ih =>
    intro off sp h
    cases it with
    | drop c =>
      simp only [spansOfItems] at h
      have := ih (off + 1) sp h
      omega
    | span k t =>
      simp only [spansOfItems] at h
      rcases List.mem_cons.mp h with heq | h2
      · subst heq; exact Nat.le_refl _
      · have := ih (off + t.length) sp h2
        omega

/-- The end offset of every recovered span is its start plus its text
length. -/
theorem spansOf_shape :
    ∀ (its : List Item) (off : Nat), ∀ sp ∈ spansOfItems off its,
      sp.endOff = sp.startOff + sp.text.length := by
  intro its
  induction its with
  | nil => intro off sp h; simp [spansOfItems] at h
  | cons it rest ih =>
    intro off sp h
    cases it with
    | drop c =>
      simp only [spansOfItems] at h
      exact ih (off + 1) sp h
    | span k t =>
      simp only [spansOfItems] at h
      rcases List.mem_cons.mp h with heq | h2
      · subst heq; rfl
      · exact ih (off + t.length) sp h2

/-- Every recovered span's kind and text name a span chunk of the list. -/
theorem spansOf_mem_items :
    ∀ (its : List Item) (off : Nat), ∀ sp ∈ spansOfItems off its,
      Item.span sp.kind sp.text ∈ its := by
  intro its
  induction its with
  | nil => intro off sp h; simp [spansOfItems] at h
  | cons it rest ih =>
    intro off sp h
    cases it with
    | drop c =>
      simp only [spansOfItems] at h
      exact List.mem_cons_of_mem _ (ih (off + 1) sp h)
    | span k t =>
      simp only [spansOfItems] at h
      rcases List.mem_cons.mp h with heq | h2
      · subst heq; exact List.mem_cons_self _ _
      · exact List.mem_cons_of_mem _ (ih (off + t.length) sp h2)

/-- The recovered spans are ordered and non-overlapping: each span ends at
or before the next one starts. -/
theorem spansOf_chain :
    ∀ (its : List Item) (off : Nat),
      List.Chain' (fun a b : Span => a.endOff ≤ b.startOff) (spansOfItems off its) := by
  intro its
  induction its with
  | nil => intro off; simp [spansOfItems]
  | cons it rest ih =>
    intro off
    cases it with
    | drop c => simpa [spansOfItems] using ih (off + 1)
    | span k t =>
      simp only [spansOfItems]
      rw [List.chain'_cons']
      refine ⟨?_, ih (off + t.length)⟩
      intro y hy
      have hmem : y ∈ spansOfItems (off + t.length) rest := List.mem_of_mem_head? hy
      exact spansOf_start_ge rest (off + t.length) y hmem

/-- With the chunk list laid down starting at `off` inside `line`, every
recovered span's text is the slice of `line` at its offsets, and its end
offset stays within the line. -/
theorem spansOf_slice :
    ∀ (its : List Item) (off : Nat) (line : List Char),
      line.drop off = itemsFlatten its →
      (∀ k t, Item.span k t ∈ its → t ≠ []) →
      ∀ sp ∈ spansOfItems off its,
        sp.text = (line.drop sp.startOff).take sp.text.length ∧
        sp.endOff ≤ line.length := by
  intro its
  induction its with
  | nil => intro off line _ _ sp h; simp [spansOfItems] at h
  | cons it rest ih =>
    intro off line hflat hne sp h
    cases it with
    | drop c =>
      simp only [itemsFlatten, itemText] at hflat
      simp only [spansOfItems] at h
      refine ih (off + 1) line ?_ ?_ sp h
      · have h1 : line.drop (off + 1) = (line.drop off).drop 1 :=
          (List.drop_drop 1 off line).symm
        rw [h1, hflat]
        rfl
      · intro k t ht
        exact hne k t (List.mem_cons_of_mem _ ht)
    | span k t =>
      have hne_t : t ≠ [] := hne k t (List.mem_cons_self _ _)
      simp only [itemsFlatten, itemText] at hflat
      have hlen_off : off ≤ line.length := by
        by_contra hcon
        push_neg at hcon
        have hnil : line.drop off = [] := List.drop_eq_nil_of_le (Nat.le_of_lt hcon)
        rw [hnil] at hflat
        exact hne_t (List.append_eq_nil.mp hflat.symm).1
      have hdroplen := congrArg List.length hflat
      simp only [List.length_drop, List.length_append] at hdroplen
      simp only [spansOfItems] at h
      rcases List.mem_cons.mp h with heq | h2
      · subst heq
        refine ⟨?_, ?_⟩
        · show t = (line.drop off).take t.length
          rw [hflat]
          exact (List.take_left t (itemsFlatten rest)).symm
        · show off + t.length ≤ line.length
          omega
      · refine ih (off + t.length) line ?_ ?_ sp h2
        · have h1 : line.drop (off + t.length) = (line.drop off).drop t.length :=
            (List.drop_drop t.length off line).symm
          rw [h1, hflat, List.drop_left]
        · intro k2 t2 ht
          exact hne k2 t2 (List.mem_cons_of_mem _ ht)

/-- C1 (amended): the Tokenizer's chunks reconstruct the line exactly —
the emitted spans interleaved with the dropped single characters
concatenate to the line, and every dropped character is a delimiter; the
emitted spans are ordered and non-overlapping, each span sits inside the
line and its text is exactly the slice of the line between its offsets;
the empty line yields the empty span sequence.  (A span's own text may
contain delimiter characters, e.g. inside a URL, so the concatenation of
the span texts alone need not equal the line's non-delimiter
characters.) -/
theorem tokenizer_coverage (cfg : ZknConfig) (line : List Char) :
    itemsFlatten (scanItems cfg line) = line ∧
    (∀ c, Item.drop c ∈ scanItems cfg line → isDelim c = true) ∧
    List.Chain' (fun a b : Span => a.endOff ≤ b.startOff) (tokenize cfg line) ∧
    (∀ sp ∈ tokenize cfg line,
      sp.startOff < sp.endOff ∧ sp.endOff ≤ line.length ∧
      sp.text = (line.drop sp.startOff).take (sp.endOff - sp.startOff)) ∧
    (line = [] → tokenize cfg line = []) := by
  have hflat : itemsFlatten (scanItems cfg line) = line :=
    scan_flatten cfg line.length line (Nat.le_refl _)
  have hne : ∀ k t, Item.span k t ∈ scanItems cfg line → t ≠ [] :=
    fun k t h => scan_spans_nonempty cfg line.length line k t h
  refine ⟨hflat, fun c h => scan_drops_delim cfg line.length line c h, ?_, ?_, ?_⟩
  · exact spansOf_chain (scanItems cfg line) 0
  · intro sp hsp
    have hshape := spansOf_shape (scanItems cfg line) 0 sp hsp
    have hslice := spansOf_slice (scanItems cfg line) 0 line (by simpa using hflat.symm)
      hne sp hsp
    have htne : sp.text ≠ [] :=
      hne sp.kind sp.text (spansOf_mem_items (scanItems cfg line) 0 sp hsp)
    have htpos : 0 < sp.text.length := List.length_pos.mpr htne
    refine ⟨by omega, hslice.2, ?_⟩
    have hdiff : sp.endOff - sp.startOff = sp.text.length := by omega
    rw [hdiff]
    exact hslice.1
  · intro h0
    subst h0
    rfl

/-- C1 counterexample to the claim as stated: for the line
`https://example.com` the single emitted URL span keeps the delimiter
characters `:`, `/` and `.` inside its text, so concatenating the span
texts does not give the line's non-delimiter characters. -/
theorem tokenizer_coverage_counterexample :
    ¬ (spanTextsConcat (tokenize defaultCfg "https://example.com".toList) =
        "https://example.com".toList.filter (fun c => !isDelim c)) := by
  decide

/-- C4: the special-span dispatch equals trying the matchers in the fixed
priority order link, tag, inline-code, footnote-reference with the first
match winning; on `See [[note]] #idea here` with link delimiters
`[[`/`]]`, the tokenizer emits exactly
Word "See", Link "[[note]]", Tag "#idea", Word "here", so text inside a
matched special span is never tokenized as a word. -/
theorem matcher_priority_order (cfg : ZknConfig) (s : List Char) :
    matchSpecial cfg s =
      firstMatch [(matchLink cfg.linkStart cfg.linkEnd s, SpanKind.link),
        (matchTag s, SpanKind.tag), (matchCode s, SpanKind.code),
        (matchFootnote s, SpanKind.footnoteRef)] ∧
    (tokenize defaultCfg "See [[note]] #idea here".toList).map
        (fun sp => (sp.kind, sp.text)) =
      [(SpanKind.word, "See".toList), (SpanKind.link, "[[note]]".toList),
       (SpanKind.tag, "#idea".toList), (SpanKind.word, "here".toList)] := by
  constructor
  · cases h1 : matchLink cfg.linkStart cfg.linkEnd s <;>
      cases h2 : matchTag s <;>
        cases h3 : matchCode s <;>
          cases h4 : matchFootnote s <;>
            simp [matchSpecial, firstMatch, h1, h2, h3, h4]
  · decide

/-- C6: an edit touching one line marks exactly that Line Record dirty
(every other record, by position, is unchanged), and `getSpans` for an
untouched clean line returns the stored span sequence both before and
after the edit, without rescanning or changing any state. -/
theorem rescan_controller_frame
    (cfg : ZknConfig) (dict : List Char → Option Bool) (cache : Cache)
    (doc : List LineRecord) (e j : Nat) (rj : LineRecord)
    (he : e < doc.length) (hne : j ≠ e)
    (hj : doc[j]? = some rj) (hclean : rj.dirty = false) :
    (∃ re, doc[e]? = some re ∧
      (markDirty doc e)[e]? = some { re with dirty := true }) ∧
    (∀ k, k ≠ e → (markDirty doc e)[k]? = doc[k]?) ∧
    (getSpans cfg dict cache (markDirty doc e) j).1 = rj.spans ∧
    (getSpans cfg dict cache doc j).1 = rj.spans ∧
    (getSpans cfg dict cache (markDirty doc e) j).2 = (markDirty doc e, cache) ∧
    (getSpans cfg dict cache doc j).2 = (doc, cache) := by
  cases hre : doc[e]? with
  | none =>
    rw [List.getElem?_eq_none_iff] at hre
    omega
  | some re =>
    have hmark : markDirty doc e = doc.set e { re with dirty := true } := by
      simp [markDirty, hre]
    have hset_e : (markDirty doc e)[e]? = some { re with dirty := true } := by
      rw [hmark]
      exact List.getElem?_set_self he
    have hset_ne : ∀ k, k ≠ e → (markDirty doc e)[k]? = doc[k]? := by
      intro k hk
      rw [hmark]
      exact List.getElem?_set_ne (fun h => hk h.symm)
    have hj' : (markDirty doc e)[j]? = some rj := by rw [hset_ne j hne, hj]
    refine ⟨⟨re, rfl, hset_e⟩, hset_ne, ?_, ?_, ?_, ?_⟩
    · simp [getSpans, hj', hclean]
    · simp [getSpans, hj, hclean]
    · simp [getSpans, hj', hclean]
    · simp [getSpans, hj, hclean]

/-- C6 witness: in the all-clean ten-line sample document, after marking
line 5 dirty, `getSpans` on line 3 still returns the stored spans and
does not touch the document or the cache. -/
theorem rescan_controller_frame_witness :
    (getSpans defaultCfg (fun _ => none) [] (markDirty sampleDoc 5) 3).1 =
      (LineRecord.mk "text".toList [] false).spans ∧
    (getSpans defaultCfg (fun _ => none) [] sampleDoc 3).2 = (sampleDoc, []) := by
  have h := rescan_controller_frame defaultCfg (fun _ => none) [] sampleDoc 5 3
    (LineRecord.mk "text".toList [] false) (by decide) (by decide) (by decide) (by decide)
  exact ⟨h.2.2.1, h.2.2.2.2.2⟩

/-- The first element a `dropWhile` keeps fails the predicate. -/
theorem dropWhile_head_false {α : Type} {p : α → Bool} :
    ∀ {l : List α} {x : α} {xs : List α}, l.dropWhile p = x :: xs → p x = false := by
  intro l
  induction l with
  | nil => intro x xs h; simp at h
  | cons a as ih =>
    intro x xs h
    by_cases hpa : p a = true
    · rw [List.dropWhile_cons_of_pos hpa] at h
      exact ih h
    · rw [List.dropWhile_cons_of_neg hpa] at h
      injection h with h1 _
      subst h1
      exact Bool.eq_false_iff.mpr hpa

/-- Trimming is idempotent: a trimmed token trims to itself. -/
theorem trimChars_idem (l : List Char) : trimChars (trimChars l) = trimChars l := by
  have htrim : ∀ m : List Char, trimChars m = (m.dropWhile isWs).rdropWhile isWs :=
    fun m => rfl
  rw [htrim, htrim]
  have h1 : ((l.dropWhile isWs).rdropWhile isWs).dropWhile isWs
      = (l.dropWhile isWs).rdropWhile isWs := by
    rcases hA : l.dropWhile isWs with _ | ⟨x, xs⟩
    · simp [List.rdropWhile]
    · have hx : isWs x = false := dropWhile_head_false hA
      obtain ⟨r, hr⟩ := List.rdropWhile_prefix isWs (x :: xs)
      rcases ht : (x :: xs).rdropWhile isWs with _ | ⟨y, ys⟩
      · simp
      · rw [ht] at hr
        have hyx : y :: (ys ++ r) = x :: xs := by simpa using hr
        injection hyx with hyx1 _
        subst hyx1
        rw [List.dropWhile_cons_of_neg (by simp [hx])]
  rw [h1, List.rdropWhile_idempotent]

/-- C10: on a trigger key (Space, Enter, Comma, Tab), `handleKey` emits
nothing when the trimmed input is empty or already present (the token list
is unchanged), and otherwise emits exactly the old list with the trimmed
input appended; consequently an emitted list keeps pairwise-distinct
tokens and keeps every token non-blank. -/
theorem tokenlist_handle_key
    (tokens : List (List Char)) (input : List Char) (key : String)
    (hkey : key ∈ triggerKeys) :
    ((trimChars input = [] ∨ trimChars input ∈ tokens) →
      handleKey tokens input key = none) ∧
    (trimChars input ≠ [] → trimChars input ∉ tokens →
      handleKey tokens input key = some (tokens ++ [trimChars input])) ∧
    (∀ l, handleKey tokens input key = some l →
      (tokens.Nodup → l.Nodup) ∧
      ((∀ t ∈ tokens, trimChars t ≠ []) → ∀ t ∈ l, trimChars t ≠ [])) := by
  refine ⟨?_, ?_, ?_⟩
  · rintro (hb | hmem)
    · simp [handleKey, hb]
    · by_cases hb : trimChars input = []
      · simp [handleKey, hb]
      · have hbeq : (trimChars input == ([] : List Char)) = false := by simpa using hb
        simp [handleKey, hbeq]
        exact fun _ => hmem
  · intro hb hnmem
    have hbeq : (trimChars input == ([] : List Char)) = false := by simpa using hb
    simp [handleKey, hbeq]
    exact ⟨hkey, hnmem⟩
  · intro l hl
    by_cases hb : trimChars input = []
    · simp [handleKey, hb] at hl
    · have hbeq : (trimChars input == ([] : List Char)) = false := by simpa using hb
      simp [handleKey, hbeq] at hl
      obtain ⟨hk2, hnmem, hleq⟩ := hl
      subst hleq
      constructor
      · intro hnd
        rw [List.nodup_append]
        refine ⟨hnd, List.nodup_singleton _, ?_⟩
        intro a ha hsing
        rw [List.mem_singleton] at hsing
        subst hsing
        exact hnmem ha
      · intro hws t ht
        rcases List.mem_append.mp ht with h | h
        · exact hws t h
        · rw [List.mem_singleton] at h
          subst h
          rw [trimChars_idem]
          exact hb

/-- C10 witness: with token list `[a]` and input " b " on Space, the
emitted list is the old list with the trimmed token appended. -/
theorem tokenlist_handle_key_witness :
    handleKey ["a".toList] " b ".toList "Space" =
      some (["a".toList] ++ [trimChars " b ".toList]) :=
  (tokenlist_handle_key ["a".toList] " b ".toList "Space" (by decide)).2.1
    (by decide) (by decide)

end Zettlr
